import Mathlib

/-!
# Verification of the patek_digital on-device data pipeline

Shallow embedding of the firmware's core pipeline:
ring buffers (`firmware/lib/ringbuf/reg_buffer.{h,cpp}`), the consolidation
engine (`firmware/lib/compute/consolidate.cpp`), the persistent record store
(`firmware/lib/storage/fs_store.cpp`) and the BLE transfer protocol
(`firmware/lib/ble/ble_service.cpp`).

Modelling conventions:
* machine integers are `Nat`/`Int` with explicit `% 2^w` where the C code can
  wrap (`uint8_t streak`, `uint16_t window_steps`, `uint32_t samples_since_step`);
* `float`/`double` arithmetic on sensor values is modelled over `ℚ`; the float
  constants `0.11f`, `0.03f`, `500.0f`, `2000.0f` are modelled as the decimal
  rationals they print as (the claims proved below do not depend on the last
  binary digit of these constants);
* `std::sqrt` of the acceleration magnitude is irrational, so the magnitude
  computation is a parameter (`magFn`) of the consolidation function; every
  theorem about consolidation quantifies over it;
* pointers that may be null are `Option`; a C `bool` return plus out-parameter
  becomes a Lean pair / `Option`.
-/

namespace PatekDigital

/-! ## Data model

`Sample` is the value-level view of `reg_buffer::Sample` as the consolidation
code reads it: eight half-precision sensor channels (values modelled in `ℚ`)
plus the 32-bit timestamp field that `consolidate.cpp` reads
(`samples[sample_count - 1].timestamp`). -/

structure Sample where
  ax : ℚ
  ay : ℚ
  az : ℚ
  gx : ℚ
  gy : ℚ
  gz : ℚ
  hr_bpm : ℚ
  temp_c : ℚ
  timestamp : Nat
deriving DecidableEq

instance : Inhabited Sample := ⟨⟨0, 0, 0, 0, 0, 0, 0, 0, 0⟩⟩

/-- `consolidate::ConsolidatedRecord` (packed, 10 bytes):
`uint16 avg_hr_x10`, `int16 avg_temp_x100`, `uint16 step_count`,
`uint32 timestamp`. -/
structure ConsolidatedRecord where
  avg_hr_x10 : Nat
  avg_temp_x100 : Int
  step_count : Nat
  timestamp : Nat
deriving DecidableEq

instance : Inhabited ConsolidatedRecord := ⟨⟨0, 0, 0, 0⟩⟩

/-- Field ranges enforced by the C types of `ConsolidatedRecord`. -/
def ConsolidatedRecord.WF (r : ConsolidatedRecord) : Prop :=
  r.avg_hr_x10 < 65536 ∧ -32768 ≤ r.avg_temp_x100 ∧ r.avg_temp_x100 < 32768 ∧
    r.step_count < 65536 ∧ r.timestamp < 4294967296

instance (r : ConsolidatedRecord) : Decidable r.WF := by
  unfold ConsolidatedRecord.WF; infer_instance

/-! ## Page-oriented ring buffer (`reg_buffer.cpp`)

The translation of the file-static state `g_ring`/`g_head`/`g_tail`/`g_count`
and the functions `begin`, `clear`, `push_256`, `pop_256`, `size`, `capacity`.
A page (256 raw bytes) is modelled as a `List Nat`; the null `data`/`out`
pointers become `Option`/a dedicated null case. -/

def REG_BUFFER_SLOTS : Nat := 32

structure PageRing where
  ring : Nat → List Nat
  g_head : Nat
  g_tail : Nat
  g_count : Nat

/-- `reg_buffer::begin` — zero the indices (page contents are untouched). -/
def PageRing.begin (st : PageRing) : PageRing :=
  { st with g_head := 0, g_tail := 0, g_count := 0 }

/-- `reg_buffer::clear` — delegates to `begin`. -/
def PageRing.clear (st : PageRing) : PageRing := st.begin

/-- `reg_buffer::push_256`. `none` models a null `data` pointer. Returns the
C function's `bool` result together with the new state. -/
def push_256 (data : Option (List Nat)) (st : PageRing) : Bool × PageRing :=
  match data with
  | none => (false, st)
  | some page =>
    let ring' := fun i => if i = st.g_head then page else st.ring i
    let head' := (st.g_head + 1) % REG_BUFFER_SLOTS
    if st.g_count < REG_BUFFER_SLOTS then
      (true, { ring := ring', g_head := head', g_tail := st.g_tail,
               g_count := st.g_count + 1 })
    else
      -- Overwrite policy: move tail forward when full
      (true, { ring := ring', g_head := head',
               g_tail := (st.g_tail + 1) % REG_BUFFER_SLOTS,
               g_count := st.g_count })

/-- `reg_buffer::pop_256` with a non-null `out` pointer: returns the page read
(or `none` when the buffer is empty) and the new state. -/
def pop_256 (st : PageRing) : Option (List Nat) × PageRing :=
  if st.g_count = 0 then (none, st)
  else (some (st.ring st.g_tail),
        { st with g_tail := (st.g_tail + 1) % REG_BUFFER_SLOTS,
                  g_count := st.g_count - 1 })

/-- `reg_buffer::size`. -/
def PageRing.size (st : PageRing) : Nat := st.g_count

/-- `reg_buffer::capacity`. -/
def pageRingCapacity : Nat := REG_BUFFER_SLOTS

/-! ## Sample ring buffer (`reg_buffer.h`, `SampleRingBuffer`)

Modelled from the spec: the repository ships only the declaration of
`reg_buffer::SampleRingBuffer` (reg_buffer.h lines 94–113) — the member
function bodies of `push`/`pop`/`peek`/`clear` are not present under the
source tree.  The behaviour below follows spec §4.1 and the header's own
comments: `head_` points to the oldest element, `tail_` to the next insertion
slot, `push` "returns false if buffer is full" (reject-on-full, no
overwrite), `pop` "returns false if buffer is empty" and yields the oldest
element (FIFO). -/

def kCapacity : Nat := 256

structure SampleRingBuffer where
  buffer_ : Nat → Sample
  head_ : Nat
  tail_ : Nat
  count_ : Nat

/-- Modelled from the spec: freshly constructed buffer (all indices zero). -/
def SampleRingBuffer.init : SampleRingBuffer :=
  { buffer_ := fun _ => default, head_ := 0, tail_ := 0, count_ := 0 }

/-- Modelled from the spec: `SampleRingBuffer::push` — fails and leaves the
state unchanged when `count_ == kCapacity`; otherwise writes at `tail_`,
advances `tail_` modulo the capacity and increments `count_`. -/
def SampleRingBuffer.push (rb : SampleRingBuffer) (s : Sample) :
    Bool × SampleRingBuffer :=
  if rb.count_ = kCapacity then (false, rb)
  else
    (true, { buffer_ := fun i => if i = rb.tail_ then s else rb.buffer_ i,
             head_ := rb.head_,
             tail_ := (rb.tail_ + 1) % kCapacity,
             count_ := rb.count_ + 1 })

/-- Modelled from the spec: `SampleRingBuffer::pop` — fails when empty;
otherwise returns the element at `head_` (the oldest), advances `head_`
modulo the capacity and decrements `count_`. -/
def SampleRingBuffer.pop (rb : SampleRingBuffer) :
    Option Sample × SampleRingBuffer :=
  if rb.count_ = 0 then (none, rb)
  else (some (rb.buffer_ rb.head_),
        { rb with head_ := (rb.head_ + 1) % kCapacity,
                  count_ := rb.count_ - 1 })

/-- `SampleRingBuffer::size`. -/
def SampleRingBuffer.size (rb : SampleRingBuffer) : Nat := rb.count_

/-- Push a whole list of samples in order (each push's success flag is the
one the C caller would observe; the state threading is what matters here). -/
def SampleRingBuffer.pushAll (rb : SampleRingBuffer) (l : List Sample) :
    SampleRingBuffer :=
  l.foldl (fun b s => (b.push s).2) rb

/-- Pop `n` times, collecting the successfully returned samples in order. -/
def SampleRingBuffer.popN (rb : SampleRingBuffer) : Nat → List Sample
  | 0 => []
  | n + 1 =>
    match (rb.pop).1 with
    | some s => s :: (rb.pop).2.popN n
    | none => []

/-- Abstraction: the queue content, oldest first. -/
def SampleRingBuffer.toList (rb : SampleRingBuffer) : List Sample :=
  (List.range rb.count_).map (fun i => rb.buffer_ ((rb.head_ + i) % kCapacity))

/-- Structural invariant maintained by `push`/`pop` from `init`. -/
def SampleRingBuffer.Inv (rb : SampleRingBuffer) : Prop :=
  rb.count_ ≤ kCapacity ∧ rb.head_ < kCapacity ∧
    rb.tail_ = (rb.head_ + rb.count_) % kCapacity

theorem SampleRingBuffer.init_inv : SampleRingBuffer.init.Inv := by
  refine ⟨by simp [init, kCapacity], by simp [init, kCapacity], ?_⟩
  simp [init]

theorem SampleRingBuffer.init_toList : SampleRingBuffer.init.toList = [] := by
  simp [init, toList]

theorem SampleRingBuffer.push_spec (rb : SampleRingBuffer) (s : Sample)
    (hinv : rb.Inv) (hlt : rb.count_ < kCapacity) :
    (rb.push s).1 = true ∧ (rb.push s).2.Inv ∧
      (rb.push s).2.toList = rb.toList ++ [s] ∧
      (rb.push s).2.count_ = rb.count_ + 1 := by
  obtain ⟨hc, hh, ht⟩ := hinv
  have hne : rb.count_ ≠ kCapacity := Nat.ne_of_lt hlt
  refine ⟨by simp [push, hne], ⟨?_, ?_, ?_⟩, ?_, by simp [push, hne]⟩
  · simp only [push, hne, if_false]
    exact Nat.succ_le_of_lt hlt
  · simp [push, hne, hh]
  · simp only [push, hne, if_false]
    rw [ht]
    simp only [kCapacity] at *
    omega
  · simp only [push, hne, if_false, toList, List.range_succ, List.map_append]
    congr 1
    · apply List.map_congr_left
      intro i hi
      simp only [List.mem_range] at hi
      have hiq : (rb.head_ + i) % kCapacity ≠ rb.tail_ := by
        rw [ht]
        simp only [kCapacity] at *
        omega
      simp [hiq]
    · have : (rb.head_ + rb.count_) % kCapacity = rb.tail_ := ht.symm
      simp [this]

theorem SampleRingBuffer.pop_spec (rb : SampleRingBuffer)
    (hinv : rb.Inv) (hne : rb.count_ ≠ 0) :
    (rb.pop).1 = some (rb.buffer_ rb.head_) ∧ (rb.pop).2.Inv ∧
      rb.toList = rb.buffer_ rb.head_ :: (rb.pop).2.toList ∧
      (rb.pop).2.count_ = rb.count_ - 1 := by
  obtain ⟨hc, hh, ht⟩ := hinv
  have hcap : 0 < kCapacity := by simp [kCapacity]
  have hpop : rb.pop = (some (rb.buffer_ rb.head_),
      { buffer_ := rb.buffer_, head_ := (rb.head_ + 1) % kCapacity,
        tail_ := rb.tail_, count_ := rb.count_ - 1 }) := by
    simp [pop, hne]
  rw [hpop]
  refine ⟨rfl, ⟨?_, Nat.mod_lt _ hcap, ?_⟩, ?_, rfl⟩
  · show rb.count_ - 1 ≤ kCapacity
    omega
  · show rb.tail_ = ((rb.head_ + 1) % kCapacity + (rb.count_ - 1)) % kCapacity
    rw [ht, Nat.mod_add_mod]
    congr 1
    omega
  · obtain ⟨c, hc0⟩ : ∃ c, rb.count_ = c + 1 := ⟨rb.count_ - 1, by omega⟩
    simp only [toList, hc0, Nat.add_sub_cancel, List.range_succ_eq_map,
      List.map_cons, List.map_map]
    congr 1
    · rw [Nat.add_zero, Nat.mod_eq_of_lt hh]
    · apply List.map_congr_left
      intro i hi
      simp only [Function.comp_apply]
      rw [Nat.mod_add_mod]
      congr 2
      omega

theorem SampleRingBuffer.pushAll_spec (l : List Sample) :
    ∀ rb : SampleRingBuffer, rb.Inv → rb.count_ + l.length ≤ kCapacity →
      (rb.pushAll l).Inv ∧ (rb.pushAll l).toList = rb.toList ++ l ∧
        (rb.pushAll l).count_ = rb.count_ + l.length := by
  induction l with
  | nil => intro rb hinv _; simpa [pushAll] using hinv
  | cons s t ih =>
    intro rb hinv hlen
    have hlt : rb.count_ < kCapacity := by
      simp only [List.length_cons] at hlen; omega
    obtain ⟨_, hinv', htl, hcnt⟩ := rb.push_spec s hinv hlt
    have step : rb.pushAll (s :: t) = ((rb.push s).2).pushAll t := by
      simp [pushAll]
    rw [step]
    have hlen' : (rb.push s).2.count_ + t.length ≤ kCapacity := by
      rw [hcnt]; simp only [List.length_cons] at hlen; omega
    obtain ⟨hi2, ht2, hc2⟩ := ih (rb.push s).2 hinv' hlen'
    refine ⟨hi2, ?_, ?_⟩
    · rw [ht2, htl, List.append_assoc]; rfl
    · rw [hc2, hcnt]; simp only [List.length_cons]; omega

theorem SampleRingBuffer.popN_toList :
    ∀ n (rb : SampleRingBuffer), rb.Inv → rb.count_ = n →
      rb.popN n = rb.toList := by
  intro n
  induction n with
  | zero =>
    intro rb _ hc
    simp [popN, toList, hc]
  | succ n ih =>
    intro rb hinv hc
    have hne : rb.count_ ≠ 0 := by omega
    obtain ⟨hp, hinv', htl, hcnt⟩ := rb.pop_spec hinv hne
    have hred : rb.popN (n + 1) = rb.buffer_ rb.head_ :: (rb.pop).2.popN n := by
      simp only [popN, hp]
    rw [hred, ih (rb.pop).2 hinv' (by omega), htl]

/-- C1: for every sequence of pushes into the sample ring buffer whose length
does not exceed the capacity, successive pops return exactly the pushed
samples in the order they were pushed (FIFO, oldest first). -/
theorem sample_ring_fifo (l : List Sample) (h : l.length ≤ kCapacity) :
    (SampleRingBuffer.init.pushAll l).popN l.length = l := by
  obtain ⟨hinv, htl, hcnt⟩ :=
    SampleRingBuffer.pushAll_spec l SampleRingBuffer.init
      SampleRingBuffer.init_inv (by simpa [SampleRingBuffer.init] using h)
  rw [SampleRingBuffer.popN_toList l.length _ hinv
    (by simpa [SampleRingBuffer.init] using hcnt)]
  rw [htl, SampleRingBuffer.init_toList, List.nil_append]

def sampleA : Sample := ⟨1, 2, 3, 4, 5, 6, 70, 36, 100⟩

def sampleB : Sample := ⟨-1, 0, 1, 0, 0, 0, 80, 37, 200⟩

theorem sample_ring_fifo_witness :
    ([sampleA, sampleB] : List Sample).length ≤ kCapacity ∧
      (SampleRingBuffer.init.pushAll [sampleA, sampleB]).popN 2 =
        [sampleA, sampleB] :=
  ⟨by decide, sample_ring_fifo [sampleA, sampleB] (by decide)⟩

/-- C2: pushing into a sample ring buffer that already holds capacity-many
elements returns failure and leaves the whole state (size and stored
contents) unchanged. -/
theorem sample_ring_push_full (rb : SampleRingBuffer) (s : Sample)
    (h : rb.count_ = kCapacity) :
    (rb.push s).1 = false ∧ (rb.push s).2 = rb ∧
      (rb.push s).2.size = rb.size := by
  refine ⟨by simp [SampleRingBuffer.push, h], by simp [SampleRingBuffer.push, h], ?_⟩
  simp [SampleRingBuffer.push, h]

def fullRing : SampleRingBuffer :=
  { buffer_ := fun _ => default, head_ := 0, tail_ := 0, count_ := 256 }

theorem sample_ring_push_full_witness :
    fullRing.count_ = kCapacity ∧
      (fullRing.push sampleA).1 = false ∧ (fullRing.push sampleA).2 = fullRing :=
  ⟨rfl, (sample_ring_push_full fullRing sampleA rfl).1,
    (sample_ring_push_full fullRing sampleA rfl).2.1⟩

/-- C10: the page-oriented `push_256` returns `true` for every non-null input
even when the buffer already holds `REG_BUFFER_SLOTS` pages — when full it
overwrites the slot at the head and advances the tail instead of rejecting —
it returns `false` only for a null pointer (leaving the state untouched),
and push/pop/clear keep the stored-page count within `[0, REG_BUFFER_SLOTS]`. -/
theorem push_256_overwrite_policy (st : PageRing) (page : List Nat)
    (hinv : st.g_count ≤ REG_BUFFER_SLOTS) :
    (push_256 (some page) st).1 = true ∧
      ((push_256 none st).1 = false ∧ (push_256 none st).2 = st) ∧
      (push_256 (some page) st).2.g_count ≤ REG_BUFFER_SLOTS ∧
      (pop_256 st).2.g_count ≤ REG_BUFFER_SLOTS ∧
      st.clear.g_count ≤ REG_BUFFER_SLOTS ∧
      (st.g_count = REG_BUFFER_SLOTS →
        (push_256 (some page) st).2.g_tail = (st.g_tail + 1) % REG_BUFFER_SLOTS ∧
          (push_256 (some page) st).2.g_count = st.g_count ∧
          (push_256 (some page) st).2.ring st.g_head = page) := by
  refine ⟨?_, ⟨rfl, rfl⟩, ?_, ?_, ?_, ?_⟩
  · simp only [push_256]
    split <;> rfl
  · simp only [push_256]
    split <;> simp_all
    omega
  · simp only [pop_256]
    split <;> simp_all
    omega
  · simp [PageRing.clear, PageRing.begin]
  · intro hfull
    have hnlt : ¬ st.g_count < REG_BUFFER_SLOTS := by omega
    simp [push_256, hnlt, hfull]

def fullPageRing : PageRing :=
  { ring := fun _ => [], g_head := 3, g_tail := 3, g_count := 32 }

theorem push_256_overwrite_policy_witness :
    fullPageRing.g_count ≤ REG_BUFFER_SLOTS ∧
      (push_256 (some [7]) fullPageRing).1 = true ∧
      (push_256 (some [7]) fullPageRing).2.g_tail = 4 :=
  ⟨by decide,
    (push_256_overwrite_policy fullPageRing [7] (by decide)).1,
    by
      have h := (push_256_overwrite_policy fullPageRing [7] (by decide)).2.2.2.2.2
        (by decide)
      exact h.1⟩

/-! ## Base64 (`mbedtls_base64_encode` as used by `send_record_packet`)

Standard RFC 4648 base64 with `=` padding, over byte lists.  `b64Decode` is
the peer-side inverse used to state "decodes bit-for-bit back to the
record bytes". -/

def b64Char (i : Nat) : Nat :=
  if i < 26 then 65 + i
  else if i < 52 then 97 + (i - 26)
  else if i < 62 then 48 + (i - 52)
  else if i = 62 then 43
  else 47

def b64Index (c : Nat) : Nat :=
  if 65 ≤ c ∧ c ≤ 90 then c - 65
  else if 97 ≤ c ∧ c ≤ 122 then c - 97 + 26
  else if 48 ≤ c ∧ c ≤ 57 then c - 48 + 52
  else if c = 43 then 62
  else 63

def b64Encode : List Nat → List Nat
  | a :: b :: c :: rest =>
    b64Char (a / 4) :: b64Char (a % 4 * 16 + b / 16) ::
      b64Char (b % 16 * 4 + c / 64) :: b64Char (c % 64) :: b64Encode rest
  | [a, b] => [b64Char (a / 4), b64Char (a % 4 * 16 + b / 16),
               b64Char (b % 16 * 4), 61]
  | [a] => [b64Char (a / 4), b64Char (a % 4 * 16), 61, 61]
  | [] => []

def b64Decode : List Nat → List Nat
  | c0 :: c1 :: c2 :: c3 :: rest =>
    if c2 = 61 then [b64Index c0 * 4 + b64Index c1 / 16]
    else if c3 = 61 then
      [b64Index c0 * 4 + b64Index c1 / 16,
       b64Index c1 % 16 * 16 + b64Index c2 / 4]
    else
      (b64Index c0 * 4 + b64Index c1 / 16) ::
        (b64Index c1 % 16 * 16 + b64Index c2 / 4) ::
        (b64Index c2 % 4 * 64 + b64Index c3) :: b64Decode rest
  | _ => []

theorem b64Index_b64Char : ∀ i < 64, b64Index (b64Char i) = i := by decide

theorem b64Char_ne_pad : ∀ i < 64, b64Char i ≠ 61 := by decide

theorem b64_roundtrip_bounded :
    ∀ (n : Nat) (bs : List Nat), bs.length ≤ n → (∀ b ∈ bs, b < 256) →
      b64Decode (b64Encode bs) = bs := by
  intro n
  induction n with
  | zero =>
    intro bs hlen _
    have : bs = [] := List.length_eq_zero.mp (by omega)
    subst this
    rfl
  | succ n ih =>
    intro bs hlen h
    rcases bs with _ | ⟨a, _ | ⟨b, _ | ⟨c, rest⟩⟩⟩
    · rfl
    · have ha : a < 256 := h a (by simp)
      have h2 : (61 : Nat) = 61 := rfl
      simp only [b64Encode, b64Decode, if_pos h2]
      rw [b64Index_b64Char _ (by omega), b64Index_b64Char _ (by omega)]
      simp only [if_true]
      have he : a / 4 * 4 + a % 4 * 16 / 16 = a := by omega
      rw [he]
    · have ha : a < 256 := h a (by simp)
      have hb : b < 256 := h b (by simp)
      have hc2 : b64Char (b % 16 * 4) ≠ 61 := b64Char_ne_pad _ (by omega)
      simp only [b64Encode, b64Decode, if_neg hc2, if_pos rfl]
      rw [b64Index_b64Char _ (by omega), b64Index_b64Char _ (by omega),
        b64Index_b64Char _ (by omega)]
      simp only [if_true]
      have he1 : a / 4 * 4 + (a % 4 * 16 + b / 16) / 16 = a := by omega
      have he2 : (a % 4 * 16 + b / 16) % 16 * 16 + b % 16 * 4 / 4 = b := by
        omega
      rw [he1, he2]
    · have ha : a < 256 := h a (by simp)
      have hb : b < 256 := h b (by simp)
      have hc : c < 256 := h c (by simp)
      have hc2 : b64Char (b % 16 * 4 + c / 64) ≠ 61 := b64Char_ne_pad _ (by omega)
      have hc3 : b64Char (c % 64) ≠ 61 := b64Char_ne_pad _ (by omega)
      simp only [b64Encode, b64Decode, if_neg hc2, if_neg hc3]
      rw [b64Index_b64Char _ (by omega), b64Index_b64Char _ (by omega),
        b64Index_b64Char _ (by omega), b64Index_b64Char _ (by omega)]
      simp only [List.cons.injEq]
      refine ⟨by omega, by omega, by omega, ?_⟩
      apply ih rest
      · simp only [List.length_cons] at hlen
        omega
      · intro x hx
        exact h x (by simp [hx])

theorem b64_roundtrip (bs : List Nat) (h : ∀ b ∈ bs, b < 256) :
    b64Decode (b64Encode bs) = bs :=
  b64_roundtrip_bounded bs.length bs le_rfl h

/-! ## Record serialization

The packed little-endian memory layout of `ConsolidatedRecord` that
`send_record_packet` base64-encodes and `fs_store` writes/reads verbatim. -/

/-- Two's-complement 16-bit image of the `int16_t` temperature field. -/
def tempBits (t : Int) : Nat := (t % 65536).toNat

/-- The 10-byte packed layout of a `ConsolidatedRecord`. -/
def recordBytes (r : ConsolidatedRecord) : List Nat :=
  [r.avg_hr_x10 % 256, r.avg_hr_x10 / 256 % 256,
   tempBits r.avg_temp_x100 % 256, tempBits r.avg_temp_x100 / 256 % 256,
   r.step_count % 256, r.step_count / 256 % 256,
   r.timestamp % 256, r.timestamp / 256 % 256,
   r.timestamp / 65536 % 256, r.timestamp / 16777216 % 256]

/-- Reading a `ConsolidatedRecord` back from its 10-byte image (the struct
read `fp.read((uint8_t*)&record, sizeof(record))` in `fs_store`). -/
def bytesToRecord : List Nat → ConsolidatedRecord
  | b0 :: b1 :: b2 :: b3 :: b4 :: b5 :: b6 :: b7 :: b8 :: b9 :: _ =>
    { avg_hr_x10 := b0 + 256 * b1,
      avg_temp_x100 :=
        if b2 + 256 * b3 < 32768 then (b2 + 256 * b3 : Int)
        else (b2 + 256 * b3 : Int) - 65536,
      step_count := b4 + 256 * b5,
      timestamp := b6 + 256 * b7 + 65536 * b8 + 16777216 * b9 }
  | _ => default

theorem recordBytes_length (r : ConsolidatedRecord) :
    (recordBytes r).length = 10 := rfl

theorem recordBytes_lt (r : ConsolidatedRecord) :
    ∀ b ∈ recordBytes r, b < 256 := by
  intro b hb
  simp only [recordBytes, List.mem_cons, List.not_mem_nil, or_false] at hb
  rcases hb with rfl | rfl | rfl | rfl | rfl | rfl | rfl | rfl | rfl | rfl <;>
    exact Nat.mod_lt _ (by norm_num)

theorem bytesToRecord_recordBytes (r : ConsolidatedRecord) (hwf : r.WF) :
    bytesToRecord (recordBytes r) = r := by
  obtain ⟨h1, h2, h3, h4, h5⟩ := hwf
  have hbits : tempBits r.avg_temp_x100 < 65536 := by
    unfold tempBits
    omega
  have hrepr : (tempBits r.avg_temp_x100 : Int) = r.avg_temp_x100 % 65536 := by
    unfold tempBits
    exact Int.toNat_of_nonneg (Int.emod_nonneg _ (by norm_num))
  cases r with
  | mk hr temp steps ts =>
    simp only [recordBytes, bytesToRecord, ConsolidatedRecord.mk.injEq]
    simp only [ConsolidatedRecord.WF] at *
    refine ⟨by omega, ?_, by omega, by omega⟩
    have hu : tempBits temp % 256 + 256 * (tempBits temp / 256 % 256)
        = tempBits temp := by omega
    rw [hu]
    split <;> omega

/-! ## Persistent record store (`fs_store.cpp`)

The data file is a flat byte list.  `append` writes the record's 10-byte
image at the end; `record_count` is `size() / sizeof(ConsolidatedRecord)`;
`erase` removes the file (an absent file reads as empty);
`for_each_record` reads 10-byte chunks from the start, stops cleanly on a
short read, and stops early when the callback returns `false`. -/

def fs_append (file : List Nat) (r : ConsolidatedRecord) : List Nat :=
  file ++ recordBytes r

def fs_erase (_file : List Nat) : List Nat := []

def record_count (file : List Nat) : Nat := file.length / 10

def appendAll (file : List Nat) (rs : List ConsolidatedRecord) : List Nat :=
  rs.foldl fs_append file

/-- The iteration loop of `fs_store::for_each_record`, returning the list of
`(index, record)` pairs the callback was invoked with. -/
def for_each_from (file : List Nat) (idx : Nat)
    (cb : ConsolidatedRecord → Nat → Bool) : List (Nat × ConsolidatedRecord) :=
  if _h : file.length < 10 then []
  else
    let r := bytesToRecord (file.take 10)
    if cb r idx then (idx, r) :: for_each_from (file.drop 10) (idx + 1) cb
    else [(idx, r)]
termination_by file.length
decreasing_by
  simp only [List.length_drop]
  omega

def for_each_record (file : List Nat)
    (cb : ConsolidatedRecord → Nat → Bool) : List (Nat × ConsolidatedRecord) :=
  for_each_from file 0 cb

theorem appendAll_eq (rs : List ConsolidatedRecord) :
    ∀ file, appendAll file rs = file ++ (rs.map recordBytes).flatten := by
  induction rs with
  | nil => intro file; simp [appendAll]
  | cons r rest ih =>
    intro file
    have : appendAll file (r :: rest) = appendAll (file ++ recordBytes r) rest := by
      simp [appendAll, fs_append]
    rw [this, ih]
    simp

theorem for_each_from_spec (rs : List ConsolidatedRecord) :
    ∀ (idx : Nat) (extra : List Nat), (∀ r ∈ rs, r.WF) → extra.length < 10 →
      for_each_from ((rs.map recordBytes).flatten ++ extra) idx (fun _ _ => true)
        = List.enumFrom idx rs := by
  induction rs with
  | nil =>
    intro idx extra _ hex
    rw [for_each_from]
    simp [hex, List.enumFrom]
  | cons r rest ih =>
    intro idx extra hwf hex
    have hlen10 : (recordBytes r).length = 10 := recordBytes_length r
    have hfile : ((r :: rest).map recordBytes).flatten ++ extra
        = recordBytes r ++ ((rest.map recordBytes).flatten ++ extra) := by
      simp
    rw [for_each_from, hfile]
    have hnot : ¬ (recordBytes r ++ ((rest.map recordBytes).flatten ++ extra)).length < 10 := by
      simp only [List.length_append, hlen10]
      omega
    rw [dif_neg hnot]
    have htake : (recordBytes r ++ ((rest.map recordBytes).flatten ++ extra)).take 10
        = recordBytes r := by
      rw [← hlen10]
      exact List.take_left _ _
    have hdrop : (recordBytes r ++ ((rest.map recordBytes).flatten ++ extra)).drop 10
        = (rest.map recordBytes).flatten ++ extra := by
      rw [← hlen10]
      exact List.drop_left _ _
    rw [htake, hdrop]
    simp only [if_pos rfl]
    rw [bytesToRecord_recordBytes r (hwf r (by simp)),
      ih (idx + 1) extra (fun x hx => hwf x (by simp [hx])) hex]
    rfl

theorem recsBytes_length (rs : List ConsolidatedRecord) :
    ((rs.map recordBytes).flatten).length = 10 * rs.length := by
  induction rs with
  | nil => simp
  | cons r rest ih =>
    simp only [List.map_cons, List.flatten_cons, List.length_append, ih,
      recordBytes_length, List.length_cons]
    omega

/-- C6: after `N` appends of the fixed-width record to an empty store,
`record_count()` is `N`; after `erase()` it is `0`; and `for_each_record`
invokes its visitor exactly `record_count()` times, in append order, with
indices `0..record_count()-1`, stopping cleanly at a short trailing
record. -/
theorem fs_store_count_and_iteration (rs : List ConsolidatedRecord)
    (extra : List Nat) (hwf : ∀ r ∈ rs, r.WF) (hextra : extra.length < 10) :
    record_count (appendAll [] rs) = rs.length ∧
      (∀ file, record_count (fs_erase file) = 0) ∧
      for_each_record (appendAll [] rs ++ extra) (fun _ _ => true)
        = List.enumFrom 0 rs ∧
      (for_each_record (appendAll [] rs ++ extra) (fun _ _ => true)).length
        = record_count (appendAll [] rs) := by
  have hflat : (appendAll [] rs) = (rs.map recordBytes).flatten := by
    rw [appendAll_eq]
    rfl
  have hlen : ((rs.map recordBytes).flatten).length = 10 * rs.length :=
    recsBytes_length rs
  have hcount : record_count (appendAll [] rs) = rs.length := by
    rw [hflat]
    unfold record_count
    omega
  refine ⟨hcount, fun _ => by simp [fs_erase, record_count], ?_, ?_⟩
  · rw [for_each_record, hflat, for_each_from_spec rs 0 extra hwf hextra]
  · rw [for_each_record, hflat, for_each_from_spec rs 0 extra hwf hextra,
      List.enumFrom_length, ← hflat, hcount]

def recW : ConsolidatedRecord := ⟨705, -1032, 12, 1700000000⟩

theorem fs_store_count_and_iteration_witness :
    (∀ r ∈ [recW], r.WF) ∧ ([3, 1, 4] : List Nat).length < 10 ∧
      for_each_record (appendAll [] [recW] ++ [3, 1, 4]) (fun _ _ => true)
        = [(0, recW)] :=
  ⟨by decide, by decide,
    (fs_store_count_and_iteration [recW] [3, 1, 4] (by decide) (by decide)).2.2.1⟩

/-! ## Transfer protocol (`ble_service.cpp`)

`stream_all_records` is modelled as the list of externally visible events it
produces: callback invocations and `notify` attempts.  `notify`'s success
depends on connection and subscription state, which can change between calls
(the peer may disconnect mid-transfer); this is abstracted as an oracle
`env : Nat → Bool` giving the success of the k-th `notify` call of the
export (index 0 is the Start frame, index i+1 the i-th Data frame). -/

inductive BleEvent where
  | transferStart : BleEvent
  | transferComplete : BleEvent
  | notifyEv : List Nat → Bool → BleEvent
deriving DecidableEq

def kStartMarker : Nat := 67

def kDataMarker : Nat := 68

def kEndMarker : Nat := 69

def kAckMarker : Nat := 65

/-- ASCII decimal digits of `n` (what `snprintf("%u")` produces). -/
def decDigits (n : Nat) : List Nat :=
  if _h : n < 10 then [48 + n]
  else decDigits (n / 10) ++ [48 + n % 10]
termination_by n
decreasing_by
  omega

/-- The Start frame `"C%u"`. -/
def startFrame (count : Nat) : List Nat := kStartMarker :: decDigits count

/-- A Data frame: marker byte `'D'` followed by the base64 text of the
record's 10 bytes. -/
def dataFrame (r : ConsolidatedRecord) : List Nat :=
  kDataMarker :: b64Encode (recordBytes r)

/-- `send_ack("NOCONN")` payload, the bytes of `"ANOCONN"`. -/
def ackNoConn : List Nat := [65, 78, 79, 67, 79, 78, 78]

/-- `send_ack("STREAMERR")` payload, the bytes of `"ASTREAMERR"`. -/
def ackStreamErr : List Nat := [65, 83, 84, 82, 69, 65, 77, 69, 82, 82]

/-- `send_ack("ERASED")` payload, the bytes of `"AERASED"`. -/
def ackErased : List Nat := [65, 69, 82, 65, 83, 69, 68]

/-- The `for_each_record` callback loop inside `stream_all_records`: sends
one Data frame per record, aborting (callback returns `false`) on the first
failed `notify`.  Returns the notify events, the `success` flag and the next
notify index. -/
def streamLoop (env : Nat → Bool) :
    Nat → List ConsolidatedRecord → List BleEvent × Bool × Nat
  | k, [] => ([], true, k)
  | k, r :: rs =>
    if env k then
      let res := streamLoop env (k + 1) rs
      (BleEvent.notifyEv (dataFrame r) true :: res.1, res.2.1, res.2.2)
    else
      ([BleEvent.notifyEv (dataFrame r) false], false, k + 1)

/-- `BLEServerClass::stream_all_records`: the event trace of one SEND.
`conn0` is `deviceConnected` at entry; the Start-frame notify's result is
ignored by the code; a Data-frame failure aborts the loop, sends the
`STREAMERR` ack instead of the End frame, and still fires the
transfer-complete callback. -/
def stream_all_records (conn0 : Bool) (env : Nat → Bool)
    (records : List ConsolidatedRecord) : List BleEvent :=
  if conn0 = false then [BleEvent.notifyEv ackNoConn (env 0)]
  else
    let count := records.length
    let startEv := BleEvent.notifyEv (startFrame count) (env 0)
    if 0 < count then
      let res := streamLoop env 1 records
      if res.2.1 then
        BleEvent.transferStart :: startEv :: res.1 ++
          [BleEvent.notifyEv [kEndMarker] (env res.2.2), BleEvent.transferComplete]
      else
        BleEvent.transferStart :: startEv :: res.1 ++
          [BleEvent.notifyEv ackStreamErr (env res.2.2), BleEvent.transferComplete]
    else
      [BleEvent.transferStart, startEv,
        BleEvent.notifyEv [kEndMarker] (env 1), BleEvent.transferComplete]

theorem streamLoop_all_ok (rs : List ConsolidatedRecord) :
    ∀ k, streamLoop (fun _ => true) k rs =
      (rs.map (fun r => BleEvent.notifyEv (dataFrame r) true), true, k + rs.length) := by
  induction rs with
  | nil => intro k; simp [streamLoop]
  | cons r rest ih =>
    intro k
    simp only [streamLoop, ih (k + 1), List.map_cons,
      List.length_cons, if_true, Prod.mk.injEq]
    exact ⟨trivial, trivial, by omega⟩

/-- C4: a SEND with a connected, always-delivering channel emits exactly the
Start frame (carrying the record count), one Data frame per stored record in
stored order, and the End frame, bracketed by the transfer start/complete
callbacks; on an empty store Start is immediately followed by End with no
Data frames; and each Data frame's payload after the marker byte
base64-decodes bit-for-bit back to the record's 10 bytes. -/
theorem send_export_framing (records : List ConsolidatedRecord) :
    stream_all_records true (fun _ => true) records =
      BleEvent.transferStart ::
        BleEvent.notifyEv (startFrame records.length) true ::
        (records.map (fun r => BleEvent.notifyEv (dataFrame r) true) ++
          [BleEvent.notifyEv [kEndMarker] true, BleEvent.transferComplete]) ∧
      ∀ r ∈ records, b64Decode (dataFrame r).tail = recordBytes r := by
  constructor
  · cases records with
    | nil => simp [stream_all_records]
    | cons r rest =>
      simp only [stream_all_records, streamLoop_all_ok, Bool.true_eq_false,
        if_false, List.length_cons, if_pos (Nat.succ_pos _)]
      simp
  · intro r _
    show b64Decode (b64Encode (recordBytes r)) = recordBytes r
    exact b64_roundtrip _ (recordBytes_lt r)

theorem send_export_framing_witness :
    recW ∈ [recW] ∧ b64Decode (dataFrame recW).tail = recordBytes recW :=
  ⟨by decide, (send_export_framing [recW]).2 recW (by simp)⟩

theorem streamLoop_fail (j : Nat) :
    ∀ (rs : List ConsolidatedRecord) (k : Nat) (env : Nat → Bool),
      j < rs.length → (∀ i, i < j → env (k + i) = true) → env (k + j) = false →
      streamLoop env k rs =
        ((rs.take j).map (fun r => BleEvent.notifyEv (dataFrame r) true) ++
          [BleEvent.notifyEv (dataFrame (rs.getD j default)) false],
         false, k + j + 1) := by
  induction j with
  | zero =>
    intro rs k env hlt _ hfail
    cases rs with
    | nil => simp at hlt
    | cons r rest =>
      rw [Nat.add_zero] at hfail
      simp [streamLoop, hfail]
  | succ j ih =>
    intro rs k env hlt hok hfail
    cases rs with
    | nil => simp at hlt
    | cons r rest =>
      have h0 : env k = true := by
        have := hok 0 (Nat.succ_pos j)
        simpa using this
      have hok' : ∀ i, i < j → env (k + 1 + i) = true := by
        intro i hi
        have := hok (i + 1) (by omega)
        rwa [show k + (i + 1) = k + 1 + i by omega] at this
      have hfail' : env (k + 1 + j) = false := by
        rwa [show k + (j + 1) = k + 1 + j by omega] at hfail
      have hlt' : j < rest.length := by
        simpa using Nat.lt_of_succ_lt_succ hlt
      simp only [streamLoop, h0, ih rest (k + 1) env hlt' hok' hfail',
        if_true, Prod.mk.injEq, List.take_succ_cons, List.map_cons,
        List.getD_cons_succ, List.cons_append]
      refine ⟨trivial, trivial, by omega⟩

/-- C5: if the j-th Data frame's notify fails mid-SEND (peer unsubscribed or
disconnected), no further Data frames are sent, the `STREAMERR` ack is sent
instead of the End frame (which never appears in the trace), and the
transfer-complete callback still fires exactly once. -/
theorem send_abort_on_failure (records : List ConsolidatedRecord)
    (env : Nat → Bool) (j : Nat) (hj : j < records.length)
    (hok : ∀ i, i < j → env (1 + i) = true) (hfail : env (1 + j) = false) :
    stream_all_records true env records =
      BleEvent.transferStart ::
        BleEvent.notifyEv (startFrame records.length) (env 0) ::
        ((records.take j).map (fun r => BleEvent.notifyEv (dataFrame r) true) ++
          [BleEvent.notifyEv (dataFrame (records.getD j default)) false,
           BleEvent.notifyEv ackStreamErr (env (1 + j + 1)),
           BleEvent.transferComplete]) ∧
      (stream_all_records true env records).count BleEvent.transferComplete = 1 ∧
      ∀ ok, BleEvent.notifyEv [kEndMarker] ok ∉ stream_all_records true env records := by
  have hloop := streamLoop_fail j records 1 env hj hok hfail
  have hpos : 0 < records.length := Nat.lt_of_le_of_lt (Nat.zero_le j) hj
  have htrace : stream_all_records true env records =
      BleEvent.transferStart ::
        BleEvent.notifyEv (startFrame records.length) (env 0) ::
        ((records.take j).map (fun r => BleEvent.notifyEv (dataFrame r) true) ++
          [BleEvent.notifyEv (dataFrame (records.getD j default)) false,
           BleEvent.notifyEv ackStreamErr (env (1 + j + 1)),
           BleEvent.transferComplete]) := by
    simp only [stream_all_records, Bool.true_eq_false, if_false, if_pos hpos,
      hloop]
    simp
  refine ⟨htrace, ?_, ?_⟩
  · rw [htrace]
    simp only [List.count_cons, List.count_append]
    have hmap : ((records.take j).map
        (fun r => BleEvent.notifyEv (dataFrame r) true)).count
          BleEvent.transferComplete = 0 := by
      apply List.count_eq_zero.mpr
      intro hm
      obtain ⟨x, _, hx⟩ := List.mem_map.mp hm
      exact BleEvent.noConfusion hx
    rw [hmap]
    rfl
  · intro ok
    rw [htrace]
    intro hm
    simp only [List.mem_cons, List.mem_append, List.mem_map] at hm
    rcases hm with h | h | ⟨x, _, hx⟩ | h
    · exact BleEvent.noConfusion h
    · have : ([kEndMarker] : List Nat) = startFrame records.length := by
        injection h
      simp [startFrame, kEndMarker, kStartMarker] at this
    · have : ([kEndMarker] : List Nat) = dataFrame x := by
        injection hx.symm
      simp [dataFrame, kEndMarker, kDataMarker] at this
    · simp only [List.mem_cons, List.not_mem_nil, or_false, List.mem_singleton] at h
      rcases h with h | h | h
      · have : ([kEndMarker] : List Nat) = dataFrame (records.getD j default) := by
          injection h
        simp [dataFrame, kEndMarker, kDataMarker] at this
      · have : ([kEndMarker] : List Nat) = ackStreamErr := by
          injection h
        simp [ackStreamErr, kEndMarker] at this
      · exact BleEvent.noConfusion h

def recW2 : ConsolidatedRecord := ⟨650, 2101, 0, 1700000100⟩

theorem send_abort_on_failure_witness :
    (0 < ([recW, recW2] : List ConsolidatedRecord).length) ∧
      (stream_all_records true (fun k => decide (k = 0)) [recW, recW2]).count
        BleEvent.transferComplete = 1 :=
  ⟨by decide,
    (send_abort_on_failure [recW, recW2] (fun k => decide (k = 0)) 0
      (by decide) (fun i hi => absurd hi (Nat.not_lt_zero i)) (by decide)).2.1⟩

/-! ## Consolidation engine (`consolidate.cpp`)

The float arithmetic on sensor values is carried out over `ℚ`; the magnitude
`std::sqrt(ax²+ay²+az²)` is irrational and is therefore a parameter `magFn`
of `consolidate` — none of the proved properties depend on it.  The wrapping
C types are modelled with explicit moduli: `uint32_t samples_since_step`,
`uint8_t streak`, `uint16_t window_steps`. -/

def kMaxBufferSize : Nat := 256

def kFilterAlpha : ℚ := 11 / 100

def kMinSamplesBetweenSteps : Nat := 6

def kMinPeakHeight : ℚ := 3 / 100

structure StepContext where
  samples_since_step : Nat
  running_avg : ℚ
  valid_walking : Bool
  streak : Nat
deriving DecidableEq

/-- The static initializer of `ctx` in `consolidate.cpp`. -/
def initialStepCtx : StepContext :=
  { samples_since_step := 1000, running_avg := 1, valid_walking := false,
    streak := 0 }

/-- The `VALID STEP` branch of the peak-detection loop (consolidate.cpp lines
110–120): reset the debounce counter, bump the streak, and either count the
step (once walking is confirmed), backfill 3 steps when the streak reaches
the confirmation threshold, or hold the step back. -/
def stepAccept (ctx : StepContext) (ws : Nat) : StepContext × Nat :=
  let streakNew := (ctx.streak + 1) % 256
  let ctxNew := { ctx with samples_since_step := 0, streak := streakNew }
  if ctx.valid_walking then (ctxNew, (ws + 1) % 65536)
  else if 3 ≤ streakNew then
    ({ ctxNew with valid_walking := true }, (ws + 3) % 65536)
  else (ctxNew, ws)

/-- Pass 2 of `consolidate`: walk the smoothed magnitudes looking at
(previous, current, next) triples; a step is accepted when the current value
is a strict local peak, above the threshold, and the debounce gap has
passed. -/
def pass2 : List ℚ → ℚ → StepContext → Nat → StepContext × Nat
  | p :: c :: nx :: rest, thr, ctx, ws =>
    let ctx1 := { ctx with
      samples_since_step := (ctx.samples_since_step + 1) % 4294967296 }
    if p < c ∧ nx < c ∧ thr < c ∧
        kMinSamplesBetweenSteps < ctx1.samples_since_step then
      let ar := stepAccept ctx1 ws
      pass2 (c :: nx :: rest) thr ar.1 ar.2
    else
      pass2 (c :: nx :: rest) thr ctx1 ws
  | _, _, ctx, ws => (ctx, ws)

/-- Pass 1 of `consolidate`: the single-pole low-pass filter over the
acceleration magnitudes.  Returns the smoothed series and the final filter
value (saved back into `ctx.running_avg`). -/
def smoothPass (magFn : ℚ → ℚ → ℚ → ℚ) : List Sample → ℚ → List ℚ × ℚ
  | [], avg0 => ([], avg0)
  | s :: rest, avg0 =>
    let m := magFn s.ax s.ay s.az
    let avg1 := avg0 * (1 - kFilterAlpha) + m * kFilterAlpha
    let res := smoothPass magFn rest avg1
    (avg1 :: res.1, res.2)

/-- `clamp(value, min, max)` from consolidate.cpp:
`std::max(min_val, std::min(value, max_val))`. -/
def clampQ (v lo hi : ℚ) : ℚ := max lo (min v hi)

/-- `static_cast<uint16_t>` of a non-negative double: truncation toward
zero. -/
def truncToNat (q : ℚ) : Nat := ⌊q⌋.toNat

/-- `static_cast<int16_t>` of an in-range double: truncation toward zero. -/
def truncToInt (q : ℚ) : Int := if 0 ≤ q then ⌊q⌋ else ⌈q⌉

/-- `consolidate::consolidate` — `none` models the `false` return on a
null/empty input; otherwise the updated persistent step context and the
emitted record. -/
def consolidate (magFn : ℚ → ℚ → ℚ → ℚ) (ctx : StepContext)
    (samples0 : List Sample) : Option (StepContext × ConsolidatedRecord) :=
  if samples0 = [] then none
  else
    let samples := samples0.take kMaxBufferSize
    let scale_factor : ℚ := if 500 < |(samples.headD default).ax| then 2000 else 1
    let sp := smoothPass magFn samples ctx.running_avg
    let ctx1 := { ctx with running_avg := sp.2 }
    let n : ℚ := (samples.length : ℚ)
    let hr_sum : ℚ := (samples.map Sample.hr_bpm).sum
    let temp_sum : ℚ := (samples.map Sample.temp_c).sum
    let window_baseline : ℚ := sp.1.sum / n
    let peak_threshold := window_baseline + kMinPeakHeight * scale_factor
    let pr := pass2 sp.1 peak_threshold ctx1 0
    let ctx3 := if pr.2 = 0 ∧ 50 < pr.1.samples_since_step then
        { pr.1 with streak := 0, valid_walking := false }
      else pr.1
    some (ctx3,
      { avg_hr_x10 := truncToNat (clampQ (hr_sum / n * 10) 0 65535),
        avg_temp_x100 := truncToInt (clampQ (temp_sum / n * 100) (-32768) 32767),
        step_count := pr.2,
        timestamp := ((samples.getLast?).getD default).timestamp })

/-- Iterate the accepted-step transition `n` times from a context with the
given streak state, starting the window's step counter at 0. -/
def acceptRunFrom (c0 : StepContext) : Nat → StepContext × Nat
  | 0 => (c0, 0)
  | n + 1 =>
    let pr := acceptRunFrom c0 n
    stepAccept pr.1 pr.2

/-! ## ERASE handling (`ble_service.cpp::handle_command` + `main.cpp`) -/

/-- Application-level state touched by the ERASE path: the store's data
file, the step detector's persistent context (file-static `ctx` in
consolidate.cpp), the `gResetRingRequested` flag and the fallback clock. -/
structure SystemState where
  file : List Nat
  ctx : StepContext
  resetRingRequested : Bool
  fallbackClockReset : Bool
deriving DecidableEq

/-- `main.cpp::handle_ble_erase`: erase the store, reset the fallback clock,
request a ring-buffer clear.  (It does not touch `consolidate`'s `ctx`;
no API to reset it exists.) -/
def handle_ble_erase (st : SystemState) : SystemState :=
  { st with file := fs_erase st.file, fallbackClockReset := true,
            resetRingRequested := true }

/-- `handle_command("ERASE")`: invoke the erase callback, then ack
`"ERASED"`. -/
def handle_command_erase (st : SystemState) : SystemState × List BleEvent :=
  (handle_ble_erase st, [BleEvent.notifyEv ackErased true])

theorem acceptRun_state (c0 : StepContext) (h0 : c0.streak = 0)
    (hv : c0.valid_walking = false) :
    ∀ n, n ≤ 65535 →
      (acceptRunFrom c0 n).1.streak = n % 256 ∧
      (acceptRunFrom c0 n).1.valid_walking = decide (3 ≤ n) ∧
      (acceptRunFrom c0 n).2 = if n < 3 then 0 else n := by
  intro n
  induction n with
  | zero =>
    intro _
    simp [acceptRunFrom, h0, hv]
  | succ n ih =>
    intro hle
    obtain ⟨hs, hw, hws⟩ := ih (by omega)
    have hrun : acceptRunFrom c0 (n + 1)
        = stepAccept (acceptRunFrom c0 n).1 (acceptRunFrom c0 n).2 := rfl
    rw [hrun]
    by_cases h3 : 3 ≤ n
    · have hwt : (acceptRunFrom c0 n).1.valid_walking = true := by
        rw [hw]
        simp [h3]
      simp only [stepAccept, hwt, if_true]
      refine ⟨by rw [hs]; omega, by simp; omega, ?_⟩
      rw [hws, if_neg (by omega), if_neg (by omega)]
      omega
    · have hwf : (acceptRunFrom c0 n).1.valid_walking = false := by
        rw [hw]
        simp
        omega
      have hs' : (acceptRunFrom c0 n).1.streak = n := by
        rw [hs]
        omega
      rcases Nat.lt_or_ge n 2 with h2 | h2
      · have hcond : ¬ 3 ≤ ((acceptRunFrom c0 n).1.streak + 1) % 256 := by
          rw [hs']
          omega
        simp only [stepAccept, hwf, Bool.false_eq_true, if_false, if_neg hcond]
        refine ⟨by rw [hs]; omega, by simp; omega, ?_⟩
        rw [hws, if_pos (by omega), if_pos (by omega)]
      · have hn2 : n = 2 := by omega
        subst hn2
        have hcond : 3 ≤ ((acceptRunFrom c0 2).1.streak + 1) % 256 := by
          rw [hs']
        simp only [stepAccept, hwf, Bool.false_eq_true, if_false, if_pos hcond]
        refine ⟨by rw [hs], by simp, ?_⟩
        rw [hws, if_pos (by omega), if_neg (by omega)]

/-- The magnitude window of the spec's synthetic test: five well-separated
peaks (indices 1, 8, 15, 22, 29, spacing 7 > debounce 6) above the
threshold. -/
def magsFive : List ℚ :=
  [0, 2, 0, 0, 0, 0, 0, 0, 2, 0, 0, 0, 0, 0, 0, 2, 0,
   0, 0, 0, 0, 0, 2, 0, 0, 0, 0, 0, 0, 2, 0]

/-- C3: starting from an unconfirmed streak, accepted steps are held back
while the streak is below 3 (windows report 0), the accepted step that
brings the streak to 3 backfills all three at once, and every accepted step
after confirmation adds exactly 1; concretely, the peak-detection loop on a
window with 5 well-separated peaks above threshold reports 5 steps. -/
theorem streak_confirmation_backfill (c0 : StepContext) (h0 : c0.streak = 0)
    (hv : c0.valid_walking = false) (n : Nat) (hn : n ≤ 65535) :
    ((acceptRunFrom c0 n).2 = if n < 3 then 0 else n) ∧
      (acceptRunFrom c0 2).2 = 0 ∧
      (acceptRunFrom c0 3).2 = (acceptRunFrom c0 2).2 + 3 ∧
      (3 ≤ n → n + 1 ≤ 65535 →
        (acceptRunFrom c0 (n + 1)).2 = (acceptRunFrom c0 n).2 + 1) ∧
      (pass2 magsFive 1 initialStepCtx 0).2 = 5 := by
  have key := acceptRun_state c0 h0 hv
  refine ⟨(key n hn).2.2, ?_, ?_, ?_, by decide⟩
  · have h := (key 2 (by omega)).2.2
    simpa using h
  · have h2 := (key 2 (by omega)).2.2
    have h3 := (key 3 (by omega)).2.2
    rw [h2, h3]
    simp
  · intro hge h1
    rw [(key (n + 1) h1).2.2, (key n hn).2.2, if_neg (by omega),
      if_neg (by omega)]

theorem streak_confirmation_backfill_witness :
    initialStepCtx.streak = 0 ∧ initialStepCtx.valid_walking = false ∧
      (5 : Nat) ≤ 65535 ∧
      (acceptRunFrom initialStepCtx 5).2 = 5 :=
  ⟨rfl, rfl, by omega, by
    have h := (streak_confirmation_backfill initialStepCtx rfl rfl 5
      (by omega)).1
    simpa using h⟩

def preEraseState : SystemState :=
  { file := [1, 2, 3],
    ctx := { samples_since_step := 3, running_avg := 5,
             valid_walking := true, streak := 2 },
    resetRingRequested := false, fallbackClockReset := false }

/-- C9 counterexample: handling ERASE carries the step detector's adaptive
state over unchanged — here streak 2, running_avg 5, samples_since_step 3
survive the command — refuting the claim that ERASE resets the step
detector's running average, streak and debounce counters. -/
theorem erase_keeps_step_state :
    (handle_command_erase preEraseState).1.ctx = preEraseState.ctx ∧
      preEraseState.ctx.streak = 2 ∧
      preEraseState.ctx.running_avg = 5 ∧
      preEraseState.ctx.samples_since_step = 3 ∧
      (handle_command_erase preEraseState).1.ctx ≠ initialStepCtx := by
  refine ⟨rfl, rfl, rfl, rfl, ?_⟩
  decide

/-- C9 amended: handling an ERASE command empties the record store, acks
`"ERASED"`, resets the fallback clock and requests a ring-buffer reset, but
leaves the step detector's adaptive state (running average, streak, debounce
counter) unchanged. -/
theorem handle_erase_spec (st : SystemState) :
    (handle_command_erase st).1.file = [] ∧
      record_count (handle_command_erase st).1.file = 0 ∧
      (handle_command_erase st).1.resetRingRequested = true ∧
      (handle_command_erase st).1.fallbackClockReset = true ∧
      (handle_command_erase st).1.ctx = st.ctx ∧
      (handle_command_erase st).2 = [BleEvent.notifyEv ackErased true] := by
  refine ⟨rfl, ?_, rfl, rfl, rfl, rfl⟩
  simp [handle_command_erase, handle_ble_erase, fs_erase, record_count]

theorem sum_map_const_of_mem (l : List Sample) (f : Sample → ℚ) (c : ℚ)
    (h : ∀ s ∈ l, f s = c) : (l.map f).sum = l.length * c := by
  induction l with
  | nil => simp
  | cons a t ih =>
    simp only [List.map_cons, List.sum_cons, List.length_cons]
    rw [h a (by simp), ih (fun s hs => h s (by simp [hs]))]
    push_cast
    ring

theorem truncToNat_natCast (k : Nat) : truncToNat ((k : ℚ)) = k := by
  unfold truncToNat
  rw [Int.floor_natCast]
  simp

theorem truncToInt_intCast (z : Int) : truncToInt ((z : ℚ)) = z := by
  unfold truncToInt
  split
  · exact Int.floor_intCast z
  · exact Int.ceil_intCast z

/-- C7: for a window in which every sample carries heart rate `H` and
temperature `T`, the emitted record's averaged fields are exactly `H×10` and
`T×100` — the accumulate-in-double / divide / scale / clamp / truncate chain
introduces no drift for constant input. -/
theorem consolidate_constant_vitals (magFn : ℚ → ℚ → ℚ → ℚ)
    (ctx : StepContext) (samples0 : List Sample) (H : Nat) (T : Int)
    (hne : samples0 ≠ [])
    (hconst : ∀ s ∈ samples0, s.hr_bpm = (H : ℚ) ∧ s.temp_c = (T : ℚ))
    (hH : 10 * H ≤ 65535) (hT1 : -32768 ≤ 100 * T) (hT2 : 100 * T ≤ 32767) :
    (consolidate magFn ctx samples0).map
        (fun out => (out.2.avg_hr_x10, out.2.avg_temp_x100))
      = some (10 * H, 100 * T) := by
  simp only [consolidate, if_neg hne, Option.map_some']
  set l := samples0.take kMaxBufferSize with hl
  have hlne : l ≠ [] := by
    rw [hl]
    simp [List.take_eq_nil_iff, hne, kMaxBufferSize]
  have hlen : l.length ≠ 0 := fun hc => hlne (List.length_eq_zero.mp hc)
  have hn : ((l.length : ℚ)) ≠ 0 := by
    exact_mod_cast hlen
  have hhr : (l.map Sample.hr_bpm).sum = l.length * (H : ℚ) :=
    sum_map_const_of_mem _ _ _
      (fun s hs => (hconst s (List.take_subset _ _ hs)).1)
  have htemp : (l.map Sample.temp_c).sum = l.length * (T : ℚ) :=
    sum_map_const_of_mem _ _ _
      (fun s hs => (hconst s (List.take_subset _ _ hs)).2)
  have havgH : (l.map Sample.hr_bpm).sum / (l.length : ℚ) * 10
      = ((10 * H : ℕ) : ℚ) := by
    rw [hhr]
    push_cast
    field_simp
    ring
  have havgT : (l.map Sample.temp_c).sum / (l.length : ℚ) * 100
      = ((100 * T : ℤ) : ℚ) := by
    rw [htemp]
    push_cast
    field_simp
    ring
  have hclampH : clampQ (((10 * H : ℕ) : ℚ)) 0 65535 = ((10 * H : ℕ) : ℚ) := by
    unfold clampQ
    rw [min_eq_left (by exact_mod_cast hH), max_eq_right (by positivity)]
  have hclampT : clampQ (((100 * T : ℤ) : ℚ)) (-32768) 32767
      = ((100 * T : ℤ) : ℚ) := by
    unfold clampQ
    rw [min_eq_left (by exact_mod_cast hT2),
      max_eq_right (by exact_mod_cast hT1)]
  simp only [havgH, havgT, hclampH, hclampT, truncToNat_natCast,
    truncToInt_intCast]

def sampleC : Sample := ⟨0, 1, 0, 0, 0, 0, 70, 36, 500⟩

theorem consolidate_constant_vitals_witness :
    ([sampleC] : List Sample) ≠ [] ∧
      (∀ s ∈ ([sampleC] : List Sample),
        s.hr_bpm = ((70 : ℕ) : ℚ) ∧ s.temp_c = ((36 : ℤ) : ℚ)) ∧
      (consolidate (fun _ _ _ => 1) initialStepCtx [sampleC]).map
        (fun out => (out.2.avg_hr_x10, out.2.avg_temp_x100))
        = some (700, 3600) :=
  ⟨by decide, by decide, by
    have h := consolidate_constant_vitals (fun _ _ _ => 1) initialStepCtx
      [sampleC] 70 36 (by decide) (by decide) (by decide) (by decide)
      (by decide)
    simpa using h⟩

/-- C8: for every successfully consolidated window (non-empty, at most the
buffer bound), the emitted record's timestamp is the timestamp of the last
(newest) sample of the window. -/
theorem consolidate_last_timestamp (magFn : ℚ → ℚ → ℚ → ℚ)
    (ctx : StepContext) (samples0 : List Sample) (hne : samples0 ≠ [])
    (hlen : samples0.length ≤ kMaxBufferSize) :
    (consolidate magFn ctx samples0).map (fun out => out.2.timestamp)
      = some ((samples0.getLast hne).timestamp) := by
  have htake : samples0.take kMaxBufferSize = samples0 :=
    List.take_of_length_le hlen
  simp only [consolidate, if_neg hne, Option.map_some', htake,
    List.getLast?_eq_getLast_of_ne_nil hne, Option.getD_some]

theorem consolidate_last_timestamp_witness :
    ([sampleA, sampleB] : List Sample) ≠ [] ∧
      ([sampleA, sampleB] : List Sample).length ≤ kMaxBufferSize ∧
      (consolidate (fun _ _ _ => 1) initialStepCtx [sampleA, sampleB]).map
        (fun out => out.2.timestamp) = some 200 :=
  ⟨by decide, by decide, by
    have h := consolidate_last_timestamp (fun _ _ _ => 1) initialStepCtx
      [sampleA, sampleB] (by decide) (by decide)
    exact h.trans (by decide)⟩

end PatekDigital
